import Mathlib

/-!
Verification development for the torch-fem linear elastic FEM engine.

The definitions below are a shallow embedding of the `Solid` class in
`src/torchfem/solid.py` (element integration, global assembly,
boundary-reduction solve) together with the element-type dispatch performed
by the constructors of `Truss` (`src/torchfem/truss.py`), `Planar`
(`src/torchfem/planar.py`) and `Solid` (`src/torchfem/solid.py`).
Tensors are modelled as functions into the rationals (exact arithmetic);
code paths that raise exceptions are modelled with `Option` / `Except`.
-/

open Matrix

/-! ## Constructor dispatch on element arity -/

/-- Error raised by the `Truss` and `Planar` constructors on an
unsupported element arity (the Python code raises
a `ValueError` reading: Element type not supported.). -/
inductive InitError where
  | unsupportedElementType
deriving DecidableEq

/-- Element variants selectable by `Truss.__init__`. -/
inductive TrussElt where
  | bar1
  | bar2
deriving DecidableEq

/-- Element variants selectable by `Planar.__init__`. -/
inductive PlanarElt where
  | tria1
  | quad1
  | tria2
  | quad2
deriving DecidableEq

/-- Element variants selectable by `Solid.__init__`. -/
inductive SolidElt where
  | hexa1
  | tetra1
deriving DecidableEq

/-- `Truss.__init__` element dispatch: arity 2 gives Bar1, arity 3 gives
Bar2, anything else raises. -/
def trussEtypeInit (arity : ℕ) : Except InitError TrussElt :=
  if arity = 2 then .ok .bar1
  else if arity = 3 then .ok .bar2
  else .error .unsupportedElementType

/-- `Planar.__init__` element dispatch: arities 3, 4, 6, 8 give Tria1,
Quad1, Tria2, Quad2; anything else raises. -/
def planarEtypeInit (arity : ℕ) : Except InitError PlanarElt :=
  if arity = 3 then .ok .tria1
  else if arity = 4 then .ok .quad1
  else if arity = 6 then .ok .tria2
  else if arity = 8 then .ok .quad2
  else .error .unsupportedElementType

/-- `Solid.__init__` element dispatch: arity 8 gives Hexa1, arity 4 gives
Tetra1, and - unlike `Truss` and `Planar` - there is no else branch, so no
exception is raised and `self.etype` is simply never assigned. -/
def solidEtypeInit (arity : ℕ) : Option SolidElt :=
  if arity = 8 then some .hexa1
  else if arity = 4 then some .tetra1
  else none

/-- Outcome of running the whole `Solid.__init__` body: construction always
completes (`Except.ok`), carrying the possibly-unset `etype` attribute. -/
def solidInit (arity : ℕ) : Except InitError (Option SolidElt) :=
  .ok (solidEtypeInit arity)

/-! ## Element type descriptor and the Solid problem record -/

/-- Descriptor of a 3-D element family as used by `Solid`: node count,
quadrature rule (the zip of `iweights()` and `ipoints()`), and the
shape-function gradient `B` at a reference coordinate. -/
structure ElemType where
  nodes : ℕ
  quad : List (ℚ × (Fin 3 → ℚ))
  B : (Fin 3 → ℚ) → Matrix (Fin 3) (Fin nodes) ℚ

/-- The `Solid` problem object: mesh, boundary data, constitutive tensor
and optional inelastic strains, as stored by `Solid.__init__`. -/
structure Solid where
  nN : ℕ
  nE : ℕ
  et : ElemType
  nodes : Matrix (Fin nN) (Fin 3) ℚ
  elements : Fin nE → Fin et.nodes → Fin nN
  forces : Fin nN → Fin 3 → ℚ
  displacements : Fin nN → Fin 3 → ℚ
  constraints : Fin nN → Fin 3 → Bool
  C : Matrix (Fin 6) (Fin 6) ℚ
  strains : Option (Fin nE → Fin 6 → ℚ)

/-- A global degree of freedom: a node paired with a spatial dimension
(Python flattens this to index 3 n + i). -/
abbrev Dof (s : Solid) := Fin s.nN × Fin 3

/-- Node part of a local (flattened) element DOF index p = 3 n + i. -/
def locNode {m : ℕ} (p : Fin (3 * m)) : Fin m :=
  ⟨p.val / 3, by have h := p.isLt; omega⟩

/-- Dimension part of a local element DOF index p = 3 n + i. -/
def locDim {m : ℕ} (p : Fin (3 * m)) : Fin 3 :=
  ⟨p.val % 3, by omega⟩

/-- Local-to-global DOF map of element j, as precomputed in
`Solid.__init__` (indices = 3 * element[n] + i). -/
def gIdx (s : Solid) (j : Fin s.nE) (p : Fin (3 * s.et.nodes)) : Dof s :=
  (s.elements j (locNode p), locDim p)

/-! ## Geometry: Jacobian, determinant, inverse -/

/-- Node coordinate block of element j: `self.nodes[element, :]`. -/
def elemXs (s : Solid) (j : Fin s.nE) : Matrix (Fin s.et.nodes) (Fin 3) ℚ :=
  fun n d => s.nodes (s.elements j n) d

/-- Jacobian at reference point q: `J = self.etype.B(q) @ nodes`. -/
def jac (et : ElemType) (q : Fin 3 → ℚ) (xs : Matrix (Fin et.nodes) (Fin 3) ℚ) :
    Matrix (Fin 3) (Fin 3) ℚ :=
  et.B q * xs

/-- 3 x 3 determinant (`torch.linalg.det` on the Jacobian). -/
def det3 (A : Matrix (Fin 3) (Fin 3) ℚ) : ℚ :=
  A 0 0 * (A 1 1 * A 2 2 - A 1 2 * A 2 1)
    - A 0 1 * (A 1 0 * A 2 2 - A 1 2 * A 2 0)
    + A 0 2 * (A 1 0 * A 2 1 - A 1 1 * A 2 0)

/-- 3 x 3 adjugate (transposed cofactor matrix). -/
def adj3 (A : Matrix (Fin 3) (Fin 3) ℚ) : Matrix (Fin 3) (Fin 3) ℚ :=
  Matrix.of
    ![![A 1 1 * A 2 2 - A 1 2 * A 2 1,
        A 0 2 * A 2 1 - A 0 1 * A 2 2,
        A 0 1 * A 1 2 - A 0 2 * A 1 1],
      ![A 1 2 * A 2 0 - A 1 0 * A 2 2,
        A 0 0 * A 2 2 - A 0 2 * A 2 0,
        A 0 2 * A 1 0 - A 0 0 * A 1 2],
      ![A 1 0 * A 2 1 - A 1 1 * A 2 0,
        A 0 1 * A 2 0 - A 0 0 * A 2 1,
        A 0 0 * A 1 1 - A 0 1 * A 1 0]]

/-- 3 x 3 inverse (`torch.linalg.inv` on the Jacobian). -/
def inv3 (A : Matrix (Fin 3) (Fin 3) ℚ) : Matrix (Fin 3) (Fin 3) ℚ :=
  (det3 A)⁻¹ • adj3 A

/-! ## Strain operator D -/

/-- Semantics of `torch.stack([u, v, w], dim=-1).ravel()`: component i of
node n lands at flat index 3 n + i. -/
def stackRavel3 {m : ℕ} (u v w : Fin m → ℚ) (c : Fin (3 * m)) : ℚ :=
  if locDim c = 0 then u (locNode c)
  else if locDim c = 1 then v (locNode c)
  else w (locNode c)

/-- Element strain matrix `Solid.D`: six Voigt rows
(exx, eyy, ezz, gyz, gzx, gxy) built from the Cartesian gradients B by
stack-and-ravel. -/
def Dmat {m : ℕ} (B : Matrix (Fin 3) (Fin m) ℚ) :
    Matrix (Fin 6) (Fin (3 * m)) ℚ :=
  Matrix.of
    ![stackRavel3 (B 0) 0 0,
      stackRavel3 0 (B 1) 0,
      stackRavel3 0 0 (B 2),
      stackRavel3 0 (B 2) (B 1),
      stackRavel3 (B 2) 0 (B 0),
      stackRavel3 (B 1) (B 0) 0]

/-! ## Element integration -/

/-- Jacobian determinant guard of `Solid.J`: the integration path raises on
`detJ <= 0`, so an element integral is produced only when every quadrature
point has positive determinant. -/
def allDetPos (s : Solid) (j : Fin s.nE) : Prop :=
  ∀ wq ∈ s.et.quad, 0 < det3 (jac s.et wq.2 (elemXs s j))

instance (s : Solid) (j : Fin s.nE) : Decidable (allDetPos s j) := by
  unfold allDetPos; infer_instance

/-- Cartesian shape-function gradient at a quadrature point:
`B = torch.linalg.inv(J) @ self.etype.B(q)`. -/
def cartB (s : Solid) (j : Fin s.nE) (q : Fin 3 → ℚ) :
    Matrix (Fin 3) (Fin s.et.nodes) ℚ :=
  inv3 (jac s.et q (elemXs s j)) * s.et.B q

/-- The quadrature sum accumulated by `Solid.k`:
`k += w * D.T @ C @ D * detJ` over all integration points. -/
def elemKval (s : Solid) (j : Fin s.nE) :
    Matrix (Fin (3 * s.et.nodes)) (Fin (3 * s.et.nodes)) ℚ :=
  (s.et.quad.map (fun wq =>
    (wq.1 * det3 (jac s.et wq.2 (elemXs s j))) •
      ((Dmat (cartB s j wq.2))ᵀ * s.C * Dmat (cartB s j wq.2)))).sum

/-- Element stiffness matrix `Solid.k`, guarded by the Jacobian check of
`Solid.J`. -/
def elemK (s : Solid) (j : Fin s.nE) :
    Option (Matrix (Fin (3 * s.et.nodes)) (Fin (3 * s.et.nodes)) ℚ) :=
  if allDetPos s j then some (elemKval s j) else none

/-- The quadrature sum accumulated by `Solid.f`:
`f += w * D.T @ C @ epsilon * detJ` over all integration points. -/
def elemFval (s : Solid) (j : Fin s.nE) (eps : Fin 6 → ℚ) :
    Fin (3 * s.et.nodes) → ℚ :=
  (s.et.quad.map (fun wq =>
    (wq.1 * det3 (jac s.et wq.2 (elemXs s j))) •
      ((Dmat (cartB s j wq.2))ᵀ *ᵥ (s.C *ᵥ eps)))).sum

/-- Element inelastic force `Solid.f`, guarded by the Jacobian check of
`Solid.J`. -/
def elemF (s : Solid) (j : Fin s.nE) (eps : Fin 6 → ℚ) :
    Option (Fin (3 * s.et.nodes) → ℚ) :=
  if allDetPos s j then some (elemFval s j eps) else none

/-- Per-element volume `Solid.volumes`: quadrature sum of `w * detJ`
(no guard, no material data). -/
def volumes (s : Solid) (j : Fin s.nE) : ℚ :=
  (s.et.quad.map (fun wq => wq.1 * det3 (jac s.et wq.2 (elemXs s j)))).sum

/-! ## Global assembly -/

/-- Scatter-add of an element matrix into the global matrix at the
row/column pairs of the element's global index map
(`K[self.global_indices[j]] += self.k(j)`). -/
def scatter (s : Solid) (j : Fin s.nE)
    (k : Matrix (Fin (3 * s.et.nodes)) (Fin (3 * s.et.nodes)) ℚ) :
    Matrix (Dof s) (Dof s) ℚ :=
  fun g1 g2 => ∑ a, ∑ b,
    if gIdx s j a = g1 ∧ gIdx s j b = g2 then k a b else 0

/-- Global stiffness `Solid.stiffness`: sum of scattered element
stiffness matrices; any element with a non-positive Jacobian determinant
aborts the whole assembly. -/
def stiffness (s : Solid) : Option (Matrix (Dof s) (Dof s) ℚ) :=
  if h : ∀ j, (elemK s j).isSome then
    some (∑ j, scatter s j ((elemK s j).get (h j)))
  else none

/-- Global inelastic force vector assembled in `Solid.solve`: zero when no
strains are given, otherwise the scatter-add of the element inelastic
forces. -/
def inelasticF (s : Solid) : Option (Dof s → ℚ) :=
  match s.strains with
  | none => some 0
  | some eps =>
    if h : ∀ j, (elemF s j (eps j)).isSome then
      some (fun g => ∑ j, ∑ a,
        if gIdx s j a = g then (elemF s j (eps j)).get (h j) a else 0)
    else none

/-! ## Boundary reduction and solve -/

/-- The free (unconstrained) DOFs, Python `uncon`. -/
abbrev FreeDof (s : Solid) := {d : Dof s // s.constraints d.1 d.2 = false}

/-- `f_d = K[:, con] @ self.displacements.ravel()[con]`. -/
def fD (s : Solid) (K : Matrix (Dof s) (Dof s) ℚ) (d : Dof s) : ℚ :=
  ∑ c, if s.constraints c.1 c.2 = true
    then K d c * s.displacements c.1 c.2 else 0

/-- Reduced stiffness `K_red = K[uncon][:, uncon]`. -/
def Kred (s : Solid) (K : Matrix (Dof s) (Dof s) ℚ) :
    Matrix (FreeDof s) (FreeDof s) ℚ :=
  fun a b => K a.1 b.1

/-- Reduced load `f_red = (self.forces.ravel() - f_d + F)[uncon]`. -/
def fred (s : Solid) (K : Matrix (Dof s) (Dof s) ℚ) (F : Dof s → ℚ)
    (a : FreeDof s) : ℚ :=
  s.forces a.1.1 a.1.2 - fD s K a.1 + F a.1

/-- `torch.linalg.solve`: dense direct solve, raising on an exactly
singular matrix; on a nonsingular matrix it returns the unique solution
(written via Cramer's rule). -/
def linsolve {n : Type} [Fintype n] [DecidableEq n]
    (A : Matrix n n ℚ) (b : n → ℚ) : Option (n → ℚ) :=
  if A.det = 0 then none
  else some ((A.det)⁻¹ • (A.adjugate *ᵥ b))

/-- Reconstructed full displacement vector:
`u = self.displacements.clone().ravel(); u[uncon] = u_red`. -/
def recon (s : Solid) (ured : FreeDof s → ℚ) (d : Dof s) : ℚ :=
  if h : s.constraints d.1 d.2 = false then ured ⟨d, h⟩
  else s.displacements d.1 d.2

/-- `Solid.solve`: assemble, reduce, solve, reconstruct, evaluate
`f = K @ u`, and reshape both fields to node-by-dimension layout; any
exception along the way aborts the whole call with no result. -/
def solve (s : Solid) :
    Option ((Fin s.nN → Fin 3 → ℚ) × (Fin s.nN → Fin 3 → ℚ)) :=
  (stiffness s).bind fun K =>
    (inelasticF s).bind fun F =>
      (linsolve (Kred s K) (fred s K F)).map fun ured =>
        (fun n i => recon s ured (n, i), fun n i => (K *ᵥ recon s ured) (n, i))

/-! ## Concrete instances

The element operator library (`torchfem.elements`) is not part of the
provided sources, so the linear tetrahedron used for concrete instances is
modelled from the specification. -/

/-- Modelled from the spec: the linear tetrahedron element family
(`Tetra1` in the element operator library, whose source file is not
provided). Four nodes with shape functions 1-x-y-z, x, y, z, hence the
constant reference gradient matrix below, and the standard one-point Gauss
rule for tetrahedra (weight 1/6 at the centroid), which integrates the
constant-Jacobian stiffness exactly. -/
def tetra1 : ElemType where
  nodes := 4
  quad := [((1 : ℚ) / 6, ![1 / 4, 1 / 4, 1 / 4])]
  B := fun _ => Matrix.of ![![-1, 1, 0, 0], ![-1, 0, 1, 0], ![-1, 0, 0, 1]]

/-- A single unit tetrahedron with no constrained DOFs, zero external
force, zero prescribed displacement and absent inelastic strains. -/
def sFree : Solid where
  nN := 4
  nE := 1
  et := tetra1
  nodes := Matrix.of ![![0, 0, 0], ![1, 0, 0], ![0, 1, 0], ![0, 0, 1]]
  elements := fun _ => ![0, 1, 2, 3]
  forces := fun _ _ => 0
  displacements := fun _ _ => 0
  constraints := fun _ _ => false
  C := 1
  strains := none

/-- A single unit tetrahedron carrying a unit xx inelastic strain, with
every DOF constrained to zero except the x component of node 1, and zero
external force. -/
def sEig : Solid where
  nN := 4
  nE := 1
  et := tetra1
  nodes := Matrix.of ![![0, 0, 0], ![1, 0, 0], ![0, 1, 0], ![0, 0, 1]]
  elements := fun _ => ![0, 1, 2, 3]
  forces := fun _ _ => 0
  displacements := fun _ _ => 0
  constraints := fun n i => if n = 1 ∧ i = 0 then false else true
  C := 1
  strains := some (fun _ => ![1, 0, 0, 0, 0, 0])

/-- A single unit tetrahedron with two nodes swapped in the connectivity,
so that the Jacobian determinant is negative (-1). -/
def sInv : Solid where
  nN := 4
  nE := 1
  et := tetra1
  nodes := Matrix.of ![![0, 0, 0], ![1, 0, 0], ![0, 1, 0], ![0, 0, 1]]
  elements := fun _ => ![0, 2, 1, 3]
  forces := fun _ _ => 0
  displacements := fun _ _ => 0
  constraints := fun _ _ => false
  C := 1
  strains := none

/-- The flat local DOF index 3 n + i of component i at node n. -/
def flat {m : ℕ} (n : Fin m) (i : Fin 3) : Fin (3 * m) :=
  ⟨3 * n.val + i.val, by have h1 := n.isLt; have h2 := i.isLt; omega⟩


/-- A gradient matrix whose rows each sum to zero, as holds for the
reference gradients of any partition-of-unity shape function set. -/
def rowSumsZero {m : ℕ} (M : Matrix (Fin 3) (Fin m) ℚ) : Prop :=
  ∀ r, ∑ n, M r n = 0

instance {m : ℕ} (M : Matrix (Fin 3) (Fin m) ℚ) : Decidable (rowSumsZero M) := by
  unfold rowSumsZero; infer_instance

/-- Local rigid x-translation: one on every x component. -/
def elocal {m : ℕ} : Fin (3 * m) → ℚ :=
  fun c => if locDim c = 0 then 1 else 0

/-- Global rigid x-translation of all nodes. -/
def transX (s : Solid) : Dof s → ℚ :=
  fun d => if d.2 = 0 then 1 else 0

/-- The solid strain operator as the specification describes it entry by
entry: writing a column index as c = 3 n + i (so n = locNode c and
i = locDim c), row 0 holds B 0 n at i = 0, row 1 holds B 1 n at i = 1,
row 2 holds B 2 n at i = 2, row 3 holds B 2 n at i = 1 and B 1 n at
i = 2, row 4 holds B 2 n at i = 0 and B 0 n at i = 2, row 5 holds B 1 n
at i = 0 and B 0 n at i = 1, and every other entry is zero. -/
def DmatSpec {m : ℕ} (B : Matrix (Fin 3) (Fin m) ℚ) :
    Matrix (Fin 6) (Fin (3 * m)) ℚ :=
  fun r c =>
    if r = 0 then (if locDim c = 0 then B 0 (locNode c) else 0)
    else if r = 1 then (if locDim c = 1 then B 1 (locNode c) else 0)
    else if r = 2 then (if locDim c = 2 then B 2 (locNode c) else 0)
    else if r = 3 then
      (if locDim c = 1 then B 2 (locNode c)
       else if locDim c = 2 then B 1 (locNode c) else 0)
    else if r = 4 then
      (if locDim c = 0 then B 2 (locNode c)
       else if locDim c = 2 then B 0 (locNode c) else 0)
    else
      (if locDim c = 0 then B 1 (locNode c)
       else if locDim c = 1 then B 0 (locNode c) else 0)

/-! ## Evaluated artefacts of the eigenstrain problem -/

set_option maxRecDepth 100000

/-- The assembled stiffness of the eigenstrain problem. -/
def KEig : Matrix (Dof sEig) (Dof sEig) ℚ :=
  (stiffness sEig).get (by with_unfolding_all decide)

/-- The assembled inelastic force vector of the eigenstrain problem. -/
def FEig : Dof sEig → ℚ :=
  (inelasticF sEig).get (by with_unfolding_all decide)

/-- The (displacement, force) pair returned by solving the eigenstrain
problem. -/
def ufEig : (Fin sEig.nN → Fin 3 → ℚ) × (Fin sEig.nN → Fin 3 → ℚ) :=
  (solve sEig).get (by with_unfolding_all decide)

/-! ## Basic facts about the guarded integration layer -/

theorem elemK_eq_none_iff (s : Solid) (j : Fin s.nE) :
    elemK s j = none ↔ ¬ allDetPos s j := by
  unfold elemK; split_ifs with h <;> simp [h]

theorem elemK_isSome_iff (s : Solid) (j : Fin s.nE) :
    (elemK s j).isSome ↔ allDetPos s j := by
  unfold elemK; split_ifs with h <;> simp [h]

theorem elemF_eq_none_iff (s : Solid) (j : Fin s.nE) (eps : Fin 6 → ℚ) :
    elemF s j eps = none ↔ ¬ allDetPos s j := by
  unfold elemF; split_ifs with h <;> simp [h]

theorem stiffness_eq_none_iff (s : Solid) :
    stiffness s = none ↔ ∃ j, ¬ allDetPos s j := by
  unfold stiffness
  by_cases hd : ∀ j, (elemK s j).isSome
  · rw [dif_pos hd]
    constructor
    · intro h; exact absurd h (by simp)
    · rintro ⟨j, hj⟩
      exact absurd ((elemK_isSome_iff s j).mp (hd j)) hj
  · rw [dif_neg hd]
    constructor
    · intro _
      push_neg at hd
      obtain ⟨j, hj⟩ := hd
      exact ⟨j, fun hp => hj ((elemK_isSome_iff s j).mpr hp)⟩
    · intro _; rfl

theorem stiffness_isSome_elems {s : Solid} {K : Matrix (Dof s) (Dof s) ℚ}
    (hK : stiffness s = some K) : ∀ j, (elemK s j).isSome := by
  by_contra hc
  rw [stiffness, dif_neg hc] at hK
  exact Option.noConfusion hK

theorem stiffness_eq_some_val (s : Solid) (hd : ∀ j, (elemK s j).isSome) :
    stiffness s = some (∑ j, scatter s j (elemKval s j)) := by
  rw [stiffness, dif_pos hd]
  apply congrArg some
  apply Finset.sum_congr rfl
  intro j _
  apply congrArg (scatter s j)
  have h := (elemK_isSome_iff s j).mp (hd j)
  simp [elemK, if_pos h]

theorem inelasticF_of_no_strains (s : Solid) (h : s.strains = none) :
    inelasticF s = some 0 := by
  unfold inelasticF
  rw [h]

theorem linsolve_spec {n : Type} [Fintype n] [DecidableEq n]
    {A : Matrix n n ℚ} {b x : n → ℚ} (h : linsolve A b = some x) :
    A.det ≠ 0 ∧ A *ᵥ x = b := by
  unfold linsolve at h
  by_cases hd : A.det = 0
  · rw [if_pos hd] at h
    exact absurd h (by simp)
  · rw [if_neg hd] at h
    refine ⟨hd, ?_⟩
    obtain rfl := Option.some.inj h
    rw [Matrix.mulVec_smul, Matrix.mulVec_mulVec, Matrix.mul_adjugate,
      Matrix.smul_mulVec_assoc, Matrix.one_mulVec, smul_smul,
      inv_mul_cancel₀ hd, one_smul]

theorem linsolve_eq_none_iff {n : Type} [Fintype n] [DecidableEq n]
    (A : Matrix n n ℚ) (b : n → ℚ) : linsolve A b = none ↔ A.det = 0 := by
  unfold linsolve
  split_ifs with hd <;> simp [hd]

theorem solve_some_spec {s : Solid} {u f : Fin s.nN → Fin 3 → ℚ}
    {K : Matrix (Dof s) (Dof s) ℚ} {F : Dof s → ℚ}
    (hsol : solve s = some (u, f)) (hK : stiffness s = some K)
    (hF : inelasticF s = some F) :
    ∃ ured, linsolve (Kred s K) (fred s K F) = some ured ∧
      u = (fun n i => recon s ured (n, i)) ∧
      f = (fun n i => (K *ᵥ recon s ured) (n, i)) := by
  unfold solve at hsol
  rw [hK, Option.some_bind, hF, Option.some_bind, Option.map_eq_some'] at hsol
  obtain ⟨ured, h1, h2⟩ := hsol
  exact ⟨ured, h1, (congrArg Prod.fst h2).symm, (congrArg Prod.snd h2).symm⟩

/-! ## Flattened-index bookkeeping -/

theorem locNode_flat {m : ℕ} (n : Fin m) (i : Fin 3) :
    locNode (flat n i) = n := by
  apply Fin.ext
  show (3 * n.val + i.val) / 3 = n.val
  have h2 := i.isLt
  omega

theorem locDim_flat {m : ℕ} (n : Fin m) (i : Fin 3) :
    locDim (flat n i) = i := by
  apply Fin.ext
  show (3 * n.val + i.val) % 3 = i.val
  have h2 := i.isLt
  omega

theorem sum_flat {m : ℕ} (f : Fin (3 * m) → ℚ) :
    ∑ c, f c = ∑ n : Fin m, ∑ i : Fin 3, f (flat n i) := by
  rw [← Equiv.sum_comp (finProdFinEquiv.trans (finCongr (Nat.mul_comm m 3))) f,
    Fintype.sum_prod_type]
  apply Finset.sum_congr rfl
  intro n _
  apply Finset.sum_congr rfl
  intro i _
  apply congrArg f
  apply Fin.ext
  show i.val + 3 * n.val = 3 * n.val + i.val
  omega

/-! ## Rigid-translation null vector of the assembled stiffness -/

theorem rowSumsZero_mul {m : ℕ} (A : Matrix (Fin 3) (Fin 3) ℚ)
    {M : Matrix (Fin 3) (Fin m) ℚ} (h : rowSumsZero M) :
    rowSumsZero (A * M) := by
  intro r
  simp only [Matrix.mul_apply]
  rw [Finset.sum_comm]
  have : ∀ k : Fin 3, ∑ n, A r k * M k n = 0 := by
    intro k
    rw [← Finset.mul_sum, h k, mul_zero]
  rw [Finset.sum_congr rfl (fun k _ => this k), Finset.sum_const_zero]

theorem Dmat_mulVec_elocal {m : ℕ} {B : Matrix (Fin 3) (Fin m) ℚ}
    (h : rowSumsZero B) : Dmat B *ᵥ (elocal (m := m)) = 0 := by
  funext r
  show ∑ c, Dmat B r c * elocal c = 0
  have step : ∀ c, Dmat B r c * elocal c =
      if locDim c = 0 then Dmat B r c else 0 := by
    intro c
    unfold elocal
    split_ifs <;> ring
  rw [Finset.sum_congr rfl (fun c _ => step c), sum_flat]
  have inner : ∀ n : Fin m,
      (∑ i : Fin 3, if locDim (flat n i) = 0
        then Dmat B r (flat n i) else 0) = Dmat B r (flat n 0) := by
    intro n
    rw [Fin.sum_univ_three]
    simp [locDim_flat]
  rw [Finset.sum_congr rfl (fun n _ => inner n)]
  have hsr : ∀ (u v w : Fin m → ℚ) (n : Fin m),
      stackRavel3 u v w (flat n 0) = u n := by
    intro u v w n
    unfold stackRavel3
    rw [locDim_flat, locNode_flat]
    simp
  fin_cases r
  · show ∑ n : Fin m, stackRavel3 (B 0) 0 0 (flat n 0) = 0
    rw [Finset.sum_congr rfl (fun n _ => hsr _ _ _ n)]
    exact h 0
  · show ∑ n : Fin m, stackRavel3 0 (B 1) 0 (flat n 0) = 0
    rw [Finset.sum_congr rfl (fun n _ => hsr _ _ _ n)]
    simp
  · show ∑ n : Fin m, stackRavel3 0 0 (B 2) (flat n 0) = 0
    rw [Finset.sum_congr rfl (fun n _ => hsr _ _ _ n)]
    simp
  · show ∑ n : Fin m, stackRavel3 0 (B 2) (B 1) (flat n 0) = 0
    rw [Finset.sum_congr rfl (fun n _ => hsr _ _ _ n)]
    simp
  · show ∑ n : Fin m, stackRavel3 (B 2) 0 (B 0) (flat n 0) = 0
    rw [Finset.sum_congr rfl (fun n _ => hsr _ _ _ n)]
    exact h 2
  · show ∑ n : Fin m, stackRavel3 (B 1) (B 0) 0 (flat n 0) = 0
    rw [Finset.sum_congr rfl (fun n _ => hsr _ _ _ n)]
    exact h 1

theorem list_sum_mulVec_zero {X I J : Type} [Fintype J]
    (l : List X) (f : X → Matrix I J ℚ) (v : J → ℚ)
    (h : ∀ x ∈ l, f x *ᵥ v = 0) : (l.map f).sum *ᵥ v = 0 := by
  induction l with
  | nil => simp [Matrix.zero_mulVec]
  | cons a t ih =>
    simp only [List.map_cons, List.sum_cons, Matrix.add_mulVec]
    rw [h a (by simp), ih (fun x hx => h x (by simp [hx]))]
    simp

theorem sum_matrix_mulVec {X I J : Type} [Fintype X] [Fintype J]
    (f : X → Matrix I J ℚ) (v : J → ℚ) :
    (∑ x, f x) *ᵥ v = ∑ x, f x *ᵥ v := by
  funext g
  simp only [Matrix.mulVec, Matrix.dotProduct, Finset.sum_apply, Matrix.sum_apply,
    Finset.sum_mul]
  exact Finset.sum_comm

theorem elemKval_mulVec_elocal (s : Solid) (j : Fin s.nE)
    (hPU : ∀ wq ∈ s.et.quad, rowSumsZero (s.et.B wq.2)) :
    elemKval s j *ᵥ elocal = 0 := by
  unfold elemKval
  apply list_sum_mulVec_zero
  intro wq hwq
  rw [Matrix.smul_mulVec_assoc]
  have hD : Dmat (cartB s j wq.2) *ᵥ elocal = 0 :=
    Dmat_mulVec_elocal (rowSumsZero_mul _ (hPU wq hwq))
  rw [← Matrix.mulVec_mulVec, hD, Matrix.mulVec_zero, smul_zero]

theorem scatter_mulVec (s : Solid) (j : Fin s.nE)
    (k : Matrix (Fin (3 * s.et.nodes)) (Fin (3 * s.et.nodes)) ℚ)
    (v : Dof s → ℚ) :
    scatter s j k *ᵥ v = fun g => ∑ a,
      if gIdx s j a = g then (k *ᵥ fun b => v (gIdx s j b)) a else 0 := by
  funext g
  show ∑ d, scatter s j k g d * v d = _
  unfold scatter
  simp only [Finset.sum_mul]
  rw [Finset.sum_comm]
  apply Finset.sum_congr rfl
  intro a _
  rw [Finset.sum_comm]
  have inner : ∀ b, (∑ d, (if gIdx s j a = g ∧ gIdx s j b = d then k a b else 0) * v d)
      = if gIdx s j a = g then k a b * v (gIdx s j b) else 0 := by
    intro b
    by_cases ha : gIdx s j a = g
    · simp only [ha, true_and, ite_mul, zero_mul, if_pos]
      exact Finset.sum_ite_eq Finset.univ (gIdx s j b) (fun d => k a b * v d) |>.trans
        (by simp)
    · simp [ha]
  rw [Finset.sum_congr rfl (fun b _ => inner b)]
  by_cases ha : gIdx s j a = g
  · simp only [if_pos ha]
    rfl
  · simp only [if_neg ha]
    simp

theorem stiffness_mulVec_transX (s : Solid) {K : Matrix (Dof s) (Dof s) ℚ}
    (hK : stiffness s = some K)
    (hPU : ∀ wq ∈ s.et.quad, rowSumsZero (s.et.B wq.2)) :
    K *ᵥ transX s = 0 := by
  have hd := stiffness_isSome_elems hK
  have hKv := (stiffness_eq_some_val s hd).symm.trans hK
  obtain rfl := Option.some.inj hKv
  rw [sum_matrix_mulVec]
  apply Finset.sum_eq_zero
  intro j _
  rw [scatter_mulVec]
  have hloc : (fun b => transX s (gIdx s j b)) = elocal (m := s.et.nodes) := rfl
  rw [hloc, elemKval_mulVec_elocal s j hPU]
  funext g
  simp

theorem Kred_det_zero_of_unconstrained (s : Solid)
    {K : Matrix (Dof s) (Dof s) ℚ}
    (hfree : ∀ n i, s.constraints n i = false)
    (hK0 : K *ᵥ transX s = 0) (hN : 0 < s.nN) :
    (Kred s K).det = 0 := by
  apply Matrix.exists_mulVec_eq_zero_iff.mp
  refine ⟨fun a => transX s a.1, ?_, ?_⟩
  · intro hcon
    have h1 := congrFun hcon ⟨(⟨0, hN⟩, (0 : Fin 3)), hfree _ _⟩
    simp only [transX, if_pos rfl, Pi.zero_apply] at h1
    exact one_ne_zero h1
  · funext a
    have hsum : ∑ b : FreeDof s, K a.1 b.1 * transX s b.1
        = ∑ d : Dof s, K a.1 d * transX s d :=
      Equiv.sum_comp (Equiv.subtypeUnivEquiv (fun d : Dof s => hfree d.1 d.2))
        (fun d => K a.1 d * transX s d)
    show ∑ b : FreeDof s, Kred s K a b * transX s b.1 = 0
    exact hsum.trans (congrFun hK0 a.1)

theorem solve_none_of_unconstrained (s : Solid)
    (hfree : ∀ n i, s.constraints n i = false)
    (hPU : ∀ wq ∈ s.et.quad, rowSumsZero (s.et.B wq.2))
    (hN : 0 < s.nN) :
    solve s = none := by
  unfold solve
  cases hK : stiffness s with
  | none => rfl
  | some K =>
    rw [Option.some_bind]
    cases hF : inelasticF s with
    | none => rfl
    | some F =>
      rw [Option.some_bind]
      have hdet := Kred_det_zero_of_unconstrained s hfree
        (stiffness_mulVec_transX s hK hPU) hN
      rw [(linsolve_eq_none_iff _ _).mpr hdet]
      rfl

/-! ## Symmetry of the assembled stiffness -/

theorem list_sum_transpose_symm {X I : Type} (l : List X) (f : X → Matrix I I ℚ)
    (h : ∀ x ∈ l, (f x)ᵀ = f x) : ((l.map f).sum)ᵀ = (l.map f).sum := by
  induction l with
  | nil => simp
  | cons a t ih =>
    simp only [List.map_cons, List.sum_cons, Matrix.transpose_add]
    rw [h a (by simp), ih (fun x hx => h x (by simp [hx]))]

theorem elemKval_transpose (s : Solid) (j : Fin s.nE) (hC : s.Cᵀ = s.C) :
    (elemKval s j)ᵀ = elemKval s j := by
  unfold elemKval
  apply list_sum_transpose_symm
  intro wq _
  rw [Matrix.transpose_smul]
  apply congrArg
  rw [Matrix.transpose_mul, Matrix.transpose_mul, Matrix.transpose_transpose, hC,
    Matrix.mul_assoc]

theorem scatter_transpose (s : Solid) (j : Fin s.nE)
    (k : Matrix (Fin (3 * s.et.nodes)) (Fin (3 * s.et.nodes)) ℚ) :
    (scatter s j k)ᵀ = scatter s j kᵀ := by
  funext g1 g2
  show scatter s j k g2 g1 = scatter s j kᵀ g1 g2
  unfold scatter
  rw [Finset.sum_comm]
  apply Finset.sum_congr rfl
  intro a _
  apply Finset.sum_congr rfl
  intro b _
  rw [if_congr (and_comm (a := gIdx s j b = g2) (b := gIdx s j a = g1)) rfl rfl]
  rfl

theorem stiffness_transpose_eq (s : Solid) {K : Matrix (Dof s) (Dof s) ℚ}
    (hC : s.Cᵀ = s.C) (hK : stiffness s = some K) : Kᵀ = K := by
  have hd := stiffness_isSome_elems hK
  have hKv := (stiffness_eq_some_val s hd).symm.trans hK
  obtain rfl := Option.some.inj hKv
  rw [Matrix.transpose_sum]
  apply Finset.sum_congr rfl
  intro j _
  rw [scatter_transpose, elemKval_transpose s j hC]

/-! ## Reconstruction and force balance -/

theorem recon_constrained (s : Solid) (ured : FreeDof s → ℚ) (d : Dof s)
    (h : s.constraints d.1 d.2 = true) :
    recon s ured d = s.displacements d.1 d.2 := by
  unfold recon
  rw [dif_neg]
  simp [h]

theorem recon_free (s : Solid) (ured : FreeDof s → ℚ) (b : FreeDof s) :
    recon s ured b.1 = ured b := by
  unfold recon
  rw [dif_pos b.2]

theorem mulVec_recon_split (s : Solid) (K : Matrix (Dof s) (Dof s) ℚ)
    (ured : FreeDof s → ℚ) (a : Dof s) :
    (K *ᵥ recon s ured) a =
      (∑ b : FreeDof s, K a b.1 * ured b) + fD s K a := by
  have hb : ∀ b : Bool, (¬ b = false) ↔ b = true := by
    intro b; cases b <;> simp
  show ∑ d, K a d * recon s ured d = _
  rw [← Finset.sum_filter_add_sum_filter_not Finset.univ
    (fun d : Dof s => s.constraints d.1 d.2 = false)
    (fun d => K a d * recon s ured d)]
  congr 1
  · rw [Finset.sum_subtype (p := fun d : Dof s => s.constraints d.1 d.2 = false)
      (Finset.filter (fun d : Dof s => s.constraints d.1 d.2 = false) Finset.univ)
      (by simp) (fun d => K a d * recon s ured d)]
    apply Finset.sum_congr rfl
    intro b _
    rw [recon_free]
  · have hfe : Finset.filter (fun d : Dof s => ¬ s.constraints d.1 d.2 = false)
        Finset.univ
        = Finset.filter (fun d : Dof s => s.constraints d.1 d.2 = true)
        Finset.univ :=
      Finset.filter_congr (fun d _ => hb _)
    rw [hfe]
    have hcon : ∀ d ∈ Finset.filter
        (fun d : Dof s => s.constraints d.1 d.2 = true) Finset.univ,
        K a d * recon s ured d = K a d * s.displacements d.1 d.2 := by
      intro d hd
      rw [recon_constrained s ured d (Finset.mem_filter.mp hd).2]
    rw [Finset.sum_congr rfl hcon, Finset.sum_filter]
    rfl

/-! ## The strain operator described by the specification -/

theorem Dmat_eq_DmatSpec {m : ℕ} (B : Matrix (Fin 3) (Fin m) ℚ) :
    Dmat B = DmatSpec B := by
  have h6 : ∀ r : Fin 6, r = 0 ∨ r = 1 ∨ r = 2 ∨ r = 3 ∨ r = 4 ∨ r = 5 := by decide
  have h3 : ∀ i : Fin 3, i = 0 ∨ i = 1 ∨ i = 2 := by decide
  funext r c
  rcases h6 r with rfl | rfl | rfl | rfl | rfl | rfl
  · show stackRavel3 (B 0) 0 0 c = DmatSpec B 0 c
    rcases h3 (locDim c) with h | h | h <;> simp [stackRavel3, DmatSpec, h]
  · show stackRavel3 0 (B 1) 0 c = DmatSpec B 1 c
    rcases h3 (locDim c) with h | h | h <;> simp [stackRavel3, DmatSpec, h]
  · show stackRavel3 0 0 (B 2) c = DmatSpec B 2 c
    rcases h3 (locDim c) with h | h | h <;> simp [stackRavel3, DmatSpec, h]
  · show stackRavel3 0 (B 2) (B 1) c = DmatSpec B 3 c
    rcases h3 (locDim c) with h | h | h <;> simp [stackRavel3, DmatSpec, h]
  · show stackRavel3 (B 2) 0 (B 0) c = DmatSpec B 4 c
    rcases h3 (locDim c) with h | h | h <;> simp [stackRavel3, DmatSpec, h]
  · show stackRavel3 (B 1) (B 0) 0 c = DmatSpec B 5 c
    rcases h3 (locDim c) with h | h | h <;> simp [stackRavel3, DmatSpec, h]

/-! ## Claim theorems -/

/-- C1: `Truss.__init__` and `Planar.__init__` raise the configuration
error on an unsupported element arity (such as 5), but `Solid.__init__`
has no else branch: it completes without raising and leaves the element
type unset, contradicting the claim that every family raises at
construction time. -/
theorem solid_init_lacks_arity_guard :
    trussEtypeInit 5 = .error .unsupportedElementType ∧
    planarEtypeInit 5 = .error .unsupportedElementType ∧
    solidInit 5 = .ok none :=
  ⟨rfl, rfl, rfl⟩

/-- C4: the assembled stiffness (and likewise each element inelastic
force) is refused exactly when some quadrature point of some element has
a non-positive Jacobian determinant; when every determinant is positive
the geometry error is not raised. -/
theorem integration_fails_iff_detJ_nonpos (s : Solid) :
    (stiffness s = none ↔
      ∃ j, ∃ wq ∈ s.et.quad, det3 (jac s.et wq.2 (elemXs s j)) ≤ 0) ∧
    (∀ (j : Fin s.nE) (e : Fin 6 → ℚ),
      elemF s j e = none ↔
        ∃ wq ∈ s.et.quad, det3 (jac s.et wq.2 (elemXs s j)) ≤ 0) := by
  have hiff : ∀ j : Fin s.nE, (¬ allDetPos s j) ↔
      ∃ wq ∈ s.et.quad, det3 (jac s.et wq.2 (elemXs s j)) ≤ 0 := by
    intro j
    unfold allDetPos
    push_neg
    rfl
  constructor
  · rw [stiffness_eq_none_iff]
    exact exists_congr hiff
  · intro j e
    rw [elemF_eq_none_iff]
    exact hiff j

/-- C7: the strain operator built by `Solid.D` coincides entry by entry
with the positional description in the specification, where column
3 n + i decodes to node `locNode` = n and dimension `locDim` = i. -/
theorem strain_operator_matches_spec {m : ℕ} (B : Matrix (Fin 3) (Fin m) ℚ) :
    Dmat B = DmatSpec B ∧
    (∀ (n : Fin m) (i : Fin 3), locNode (flat n i) = n ∧ locDim (flat n i) = i) :=
  ⟨Dmat_eq_DmatSpec B, fun n i => ⟨locNode_flat n i, locDim_flat n i⟩⟩

/-- C8: the element volume query is exactly the quadrature sum of
w * det(B(q) @ nodeCoordinates), and it is unchanged by any modification
of the constitutive tensor, forces, displacements, constraints or
inelastic strains. -/
theorem volumes_quadrature_only (s : Solid) :
    (∀ j : Fin s.nE, volumes s j =
      (s.et.quad.map (fun wq => wq.1 * det3 (jac s.et wq.2 (elemXs s j)))).sum) ∧
    (∀ (M : Matrix (Fin 6) (Fin 6) ℚ) (F d : Fin s.nN → Fin 3 → ℚ)
       (b : Fin s.nN → Fin 3 → Bool) (e : Option (Fin s.nE → Fin 6 → ℚ)),
      volumes { s with C := M, forces := F, displacements := d,
                       constraints := b, strains := e } = volumes s) :=
  ⟨fun j => rfl, fun M F d b e => rfl⟩

/-- C10: the volume query bypasses the Jacobian-determinant guard: it is
total (always the plain quadrature value), and on a mesh with an inverted
element - where the stiffness and inelastic-force integrations raise the
geometry error - it still returns a (negative) value. -/
theorem volumes_bypasses_jacobian_guard :
    (∀ (s : Solid) (j : Fin s.nE), volumes s j =
      (s.et.quad.map (fun wq => wq.1 * det3 (jac s.et wq.2 (elemXs s j)))).sum) ∧
    stiffness sInv = none ∧
    (∀ e : Fin 6 → ℚ, elemF sInv ⟨0, by decide⟩ e = none) ∧
    volumes sInv ⟨0, by decide⟩ = -(1 / 6) := by
  have hneg : ¬ allDetPos sInv ⟨0, by decide⟩ := by with_unfolding_all decide
  refine ⟨fun s j => rfl, ?_, ?_, ?_⟩
  · rw [stiffness_eq_none_iff]
    exact ⟨⟨0, by decide⟩, hneg⟩
  · intro e
    rw [elemF_eq_none_iff]
    exact hneg
  · with_unfolding_all decide

/-- C2 (amended): for a fully unconstrained problem with zero external
force and zero (or absent) inelastic strain, built from a
partition-of-unity element family, the assembled stiffness is exactly
singular (rigid translations lie in its null space), so `solve` raises
the numerical error and returns no displacement instead of succeeding
with the zero field. -/
theorem solve_unconstrained_raises_singular (s : Solid)
    (hE : s.nE = 1)
    (hfree : ∀ n i, s.constraints n i = false)
    (hforce : ∀ n i, s.forces n i = 0)
    (hstr : s.strains = none ∨ s.strains = some 0)
    (hPU : ∀ wq ∈ s.et.quad, rowSumsZero (s.et.B wq.2))
    (hN : 0 < s.nN) :
    solve s = none :=
  solve_none_of_unconstrained s hfree hPU hN

/-- C2 (counterexample): on a concrete single unconstrained unit
tetrahedron with zero loads, `solve` does not succeed - it raises the
singular-system error - so the claimed zero-displacement result is never
produced. -/
theorem solve_unconstrained_counterexample : solve sFree = none :=
  solve_none_of_unconstrained sFree (by decide)
    (by with_unfolding_all decide) (by decide)

/-- C2: witness that the hypotheses of the amended claim are satisfiable
on the concrete unconstrained tetrahedron problem. -/
theorem solve_unconstrained_raises_singular_witness :
    sFree.nE = 1 ∧ (∀ n i, sFree.constraints n i = false) ∧
    (∀ n i, sFree.forces n i = 0) ∧
    (sFree.strains = none ∨ sFree.strains = some 0) ∧
    (∀ wq ∈ sFree.et.quad, rowSumsZero (sFree.et.B wq.2)) ∧
    0 < sFree.nN ∧ solve sFree = none :=
  ⟨rfl, by decide, by with_unfolding_all decide, Or.inl rfl,
    by with_unfolding_all decide, by decide,
    solve_unconstrained_raises_singular sFree rfl (by decide)
      (by with_unfolding_all decide) (Or.inl rfl)
      (by with_unfolding_all decide) (by decide)⟩

/-- C3: whenever `solve` succeeds, the returned displacement carries the
prescribed values at every constrained DOF, and its restriction to the
free DOFs solves the reduced system with matrix K[U,U] and load
(forces - K[:,C] @ displacements[C] + inelasticForce)[U]. -/
theorem solve_satisfies_reduced_system (s : Solid)
    (K : Matrix (Dof s) (Dof s) ℚ) (F : Dof s → ℚ)
    (u f : Fin s.nN → Fin 3 → ℚ)
    (hK : stiffness s = some K) (hF : inelasticF s = some F)
    (hsol : solve s = some (u, f)) :
    (∀ n i, s.constraints n i = true → u n i = s.displacements n i) ∧
    (∀ a : FreeDof s,
      (∑ b : FreeDof s, K a.1 b.1 * u b.1.1 b.1.2) =
        s.forces a.1.1 a.1.2
          - (∑ c : Dof s, if s.constraints c.1 c.2 = true
              then K a.1 c * s.displacements c.1 c.2 else 0)
          + F a.1) := by
  obtain ⟨ured, hls, hu, hf⟩ := solve_some_spec hsol hK hF
  subst hu
  constructor
  · intro n i hc
    exact recon_constrained s ured (n, i) hc
  · intro a
    have hKx := (linsolve_spec hls).2
    calc (∑ b : FreeDof s, K a.1 b.1 * recon s ured (b.1.1, b.1.2))
        = ∑ b : FreeDof s, Kred s K a b * ured b := by
          apply Finset.sum_congr rfl
          intro b _
          rw [recon_free s ured b]
          rfl
      _ = (Kred s K *ᵥ ured) a := rfl
      _ = fred s K F a := congrFun hKx a
      _ = _ := rfl

/-- C3: witness on the concrete eigenstrain problem, whose solve
succeeds. -/
theorem solve_satisfies_reduced_system_witness :
    stiffness sEig = some KEig ∧ inelasticF sEig = some FEig ∧
    solve sEig = some (ufEig.1, ufEig.2) ∧
    ((∀ n i, sEig.constraints n i = true → ufEig.1 n i = sEig.displacements n i) ∧
     (∀ a : FreeDof sEig,
       (∑ b : FreeDof sEig, KEig a.1 b.1 * ufEig.1 b.1.1 b.1.2) =
         sEig.forces a.1.1 a.1.2
           - (∑ c : Dof sEig, if sEig.constraints c.1 c.2 = true
               then KEig a.1 c * sEig.displacements c.1 c.2 else 0)
           + FEig a.1)) :=
  ⟨(Option.some_get (by with_unfolding_all decide)).symm,
    (Option.some_get (by with_unfolding_all decide)).symm,
    (Option.some_get (by with_unfolding_all decide)).symm,
    solve_satisfies_reduced_system sEig KEig FEig ufEig.1 ufEig.2
      (Option.some_get (by with_unfolding_all decide)).symm
      (Option.some_get (by with_unfolding_all decide)).symm
      (Option.some_get (by with_unfolding_all decide)).symm⟩

/-- C5 (amended): whenever `solve` succeeds, the force field f = K @ u
equals the applied external force plus the assembled inelastic force at
every free DOF (so it equals the external force alone only when the
inelastic contribution vanishes there). -/
theorem solve_force_balance_includes_inelastic (s : Solid)
    (K : Matrix (Dof s) (Dof s) ℚ) (F : Dof s → ℚ)
    (u f : Fin s.nN → Fin 3 → ℚ)
    (hK : stiffness s = some K) (hF : inelasticF s = some F)
    (hsol : solve s = some (u, f)) :
    ∀ a : FreeDof s, f a.1.1 a.1.2 = s.forces a.1.1 a.1.2 + F a.1 := by
  obtain ⟨ured, hls, hu, hf⟩ := solve_some_spec hsol hK hF
  subst hf
  intro a
  show (K *ᵥ recon s ured) a.1 = _
  rw [mulVec_recon_split s K ured a.1]
  have h1 : (∑ b : FreeDof s, K a.1 b.1 * ured b) = fred s K F a :=
    congrFun (linsolve_spec hls).2 a
  rw [h1]
  show s.forces a.1.1 a.1.2 - fD s K a.1 + F a.1 + fD s K a.1 = _
  ring

/-- C5 (counterexample): on the concrete eigenstrain problem the solve
succeeds, the x DOF of node 1 is free, and the returned force there is
1/6 while the applied external force is 0 - so f = K @ u does not
reproduce the external force at a free DOF. -/
theorem solve_force_equals_external_counterexample :
    solve sEig = some (ufEig.1, ufEig.2) ∧
    sEig.constraints ⟨1, by decide⟩ 0 = false ∧
    ufEig.2 ⟨1, by decide⟩ 0 = 1 / 6 ∧
    sEig.forces ⟨1, by decide⟩ 0 = 0 ∧
    ¬ ufEig.2 ⟨1, by decide⟩ 0 = sEig.forces ⟨1, by decide⟩ 0 :=
  ⟨(Option.some_get (by with_unfolding_all decide)).symm,
    by decide,
    by with_unfolding_all decide,
    by with_unfolding_all decide,
    by with_unfolding_all decide⟩

/-- C5: witness that the amended force-balance claim applies to the
concrete eigenstrain problem. -/
theorem solve_force_balance_includes_inelastic_witness :
    stiffness sEig = some KEig ∧ inelasticF sEig = some FEig ∧
    solve sEig = some (ufEig.1, ufEig.2) ∧
    (∀ a : FreeDof sEig,
      ufEig.2 a.1.1 a.1.2 = sEig.forces a.1.1 a.1.2 + FEig a.1) :=
  ⟨(Option.some_get (by with_unfolding_all decide)).symm,
    (Option.some_get (by with_unfolding_all decide)).symm,
    (Option.some_get (by with_unfolding_all decide)).symm,
    solve_force_balance_includes_inelastic sEig KEig FEig ufEig.1 ufEig.2
      (Option.some_get (by with_unfolding_all decide)).symm
      (Option.some_get (by with_unfolding_all decide)).symm
      (Option.some_get (by with_unfolding_all decide)).symm⟩

/-- C6: for a symmetric constitutive tensor, the assembled global
stiffness matrix is symmetric whenever it is produced at all. -/
theorem stiffness_symmetric (s : Solid) (K : Matrix (Dof s) (Dof s) ℚ)
    (hC : s.Cᵀ = s.C) (hK : stiffness s = some K) : Kᵀ = K :=
  stiffness_transpose_eq s hC hK

/-- C6: witness on the concrete eigenstrain problem (identity
constitutive tensor). -/
theorem stiffness_symmetric_witness :
    sEig.Cᵀ = sEig.C ∧ stiffness sEig = some KEig ∧ KEigᵀ = KEig :=
  ⟨Matrix.transpose_one, (Option.some_get (by with_unfolding_all decide)).symm,
    stiffness_symmetric sEig KEig Matrix.transpose_one
      (Option.some_get (by with_unfolding_all decide)).symm⟩
